import Mathlib

/-!
Shallow embedding of the versioned key-value extraction engine of
cmd/extract.go (the auger `extract` command) and proofs about it.

Modelling conventions:
* A decoded etcd record (mvccpb.KeyValue) is `KeyValue`; Go byte slices are
  `List Nat` and Go int64 fields are `Int`.
* The bolt store is modelled as the list of its physical entries in cursor
  order.  `walk` is parametric in the entry type and in the record decoder
  (kv.Unmarshal is an external collaborator), and passes the state of the
  visitor closure explicitly.
* External boundaries (encoding.Convert + json.Unmarshal used to build the
  decoded value, json.Marshal used to render it) are taken as function
  parameters, since they are outside the core being verified.
* Errors produced with fmt.Errorf are modelled by the `GoError` inductive;
  each distinct format string is a distinct constructor.
-/

/-- Go error values returned by the extract command.  Each constructor
corresponds to one way the code builds an error; errors coming from external
collaborators (the record decoder, format conversion) are represented with
`other` and an arbitrary message. -/
inductive GoError where
  /-- fmt.Errorf of the text: Error handling key, with the record key. -/
  | errorHandlingKey (key : List Nat)
  /-- fmt.Errorf of the text: unrecognized field, with the field name. -/
  | unrecognizedField (name : String)
  /-- fmt.Errorf of the text: 0 byte value. -/
  | zeroByteValue
  /-- fmt.Errorf of the text: key not found, with the key. -/
  | keyNotFound (key : List Nat)
  /-- fmt.Errorf of the text: No versions found for key, with the key. -/
  | noVersionsFound (key : List Nat)
  /-- any error produced by an external collaborator. -/
  | other (msg : String)
deriving DecidableEq, Repr

/-- True exactly on the error built by walk when a visitor returns an error
(the format string: Error handling key). -/
def GoError.isErrorHandlingKey : GoError → Bool
  | .errorHandlingKey _ => true
  | _ => false

/-- True exactly on the unrecognized-field error of summarize. -/
def GoError.isUnrecognizedField : GoError → Bool
  | .unrecognizedField _ => true
  | _ => false

/-- One decoded etcd record, mvccpb.KeyValue. -/
structure KeyValue where
  key : List Nat
  value : List Nat
  version : Int
  createRevision : Int
  modRevision : Int
  lease : Int
deriving DecidableEq, Repr

/-- Embedding of walk (extract.go).  `store` is the list of physical entries
the bolt cursor yields, `dec` is the external record decoder (kv.Unmarshal),
and `f` is the visitor; the state `σ` threads the mutations the Go visitor
closure performs on its captured variables.  The visitor returns the new
state, the `done` flag and an optional error.  Exactly as in the source:
a decode failure returns the decoder error unchanged; a visitor error is
replaced by a fresh error naming the record key; `done = true` stops the
iteration without error. -/
def walk {α σ : Type} (dec : α → Except GoError KeyValue)
    (f : σ → KeyValue → σ × Bool × Option GoError) :
    List α → σ → Except GoError σ
  | [], s => .ok s
  | v :: rest, s =>
    match dec v with
    | .error e => .error e
    | .ok kv =>
      match f s kv with
      | (_, _, some _) => .error (.errorHandlingKey kv.key)
      | (s2, true, none) => .ok s2
      | (s2, false, none) => walk dec f rest s2

/-- Embedding of listVersions (extract.go): the walk visitor appends the
version of every record whose key equals the requested key.  Specialised to
a store whose entries are already decoded records (the decoder is the
identity and never fails, so the walk reduces to this fold). -/
def listVersions (store : List KeyValue) (key : List Nat) : List Int :=
  store.foldl (fun result kv => if kv.key == key then result ++ [kv.version] else result) []

/-- One step of the running maximum used by maxInSlice and by the latest
version tracking of the aggregator: the accumulator is replaced when the
element exceeds it. -/
def maxStep (r e : Int) : Int :=
  if e > r then e else r

/-- Embedding of maxInSlice (extract.go): r starts at 0 and is replaced by
every element exceeding it. -/
def maxInSlice (s : List Int) : Int :=
  s.foldl (fun r e => if e > r then e else r) 0

/-- Embedding of getValue (extract.go): the walk visitor stops at the first
record matching both key and version and keeps its value; if the walk
completes without a match the key-not-found error is returned. -/
def getValue (store : List KeyValue) (key : List Nat) (version : Int) :
    Except GoError (List Nat) :=
  match store.find? (fun kv => kv.key == key && kv.version == version) with
  | some kv => .ok kv.value
  | none => .error (.keyNotFound key)

/-- Raw bytes rendered as a Go string (used only for output lines; claims
never inspect the rendered text). -/
def bytesToString (bs : List Nat) : String :=
  String.mk (bs.map Char.ofNat)

/-- Tail of printValue (extract.go) once the target version is known: get
the value, fail on a 0 byte value, then either print it raw or hand it to
the external conversion boundary `conv`.  The first component of the result
is the list of strings written to the output sink. -/
def printValueAt (store : List KeyValue) (key : List Nat) (v : Int) (raw : Bool)
    (conv : List Nat → Except GoError String) : List String × Option GoError :=
  match getValue store key v with
  | .error e => ([], some e)
  | .ok bytes =>
    if bytes.length = 0 then ([], some .zeroByteValue)
    else if raw then ([bytesToString bytes], none)
    else
      match conv bytes with
      | .error e => ([], some e)
      | .ok s => ([s], none)

/-- Embedding of printValue (extract.go).  The version selector is the
already-parsed --version option: `none` models the empty string, in which
case all versions are enumerated and maxInSlice picks the target (failing
when the key has no versions); `some v` models an explicit version.  The
strconv parse failure of a malformed selector is outside this model. -/
def printValue (store : List KeyValue) (key : List Nat) (version : Option Int)
    (raw : Bool) (conv : List Nat → Except GoError String) :
    List String × Option GoError :=
  match version with
  | none =>
    let versions := listVersions store key
    if versions.length = 0 then ([], some (.noVersionsFound key))
    else printValueAt store key (maxInSlice versions) raw conv
  | some v => printValueAt store key v raw conv

/-- The extract command options (the opts global of extract.go). -/
structure ExtractOptions where
  out : String
  filename : String
  key : String
  version : String
  keyPref : String
  listVersions : Bool
  leafItem : Bool
  printKey : Bool
  metaSummary : Bool
  raw : Bool
  fields : String
  template : String
deriving DecidableEq, Repr

/-- The operation extractValidateAndRun selects.  Constructors other than
`usageError` and `invalidOutput` stand for the operations that go on to
perform store or input I/O. -/
inductive ExtractAction where
  | invalidOutput (out : String)
  | leafItemMetaSummary
  | leafItemPrintKey
  | leafItemValue
  | usageError (msg : String)
  | printVersionsOp (filename key : String)
  | printValueOp (filename key version : String) (raw : Bool)
  | templateSummariesOp (filename keyPref template : String)
  | printKeySummariesOp (filename keyPref : String) (fields : List String)
deriving DecidableEq, Repr

/-- True exactly on the usage-error actions (the fmt.Errorf returns of the
option-validation switch). -/
def ExtractAction.isUsageError : ExtractAction → Bool
  | .usageError _ => true
  | _ => false

/-- The field-name constant Key of extract.go. -/
def Key : String := "key"

/-- The field-name constant ValueSize of extract.go. -/
def ValueSize : String := "value-size"

/-- The field-name constant AllVersionsValueSize of extract.go. -/
def AllVersionsValueSize : String := "all-versions-value-size"

/-- The field-name constant VersionCount of extract.go. -/
def VersionCount : String := "version-count"

/-- The field-name constant Value of extract.go. -/
def Value : String := "value"

/-- Embedding of the option-validation switch of extractValidateAndRun
(extract.go).  `ok` is the external encoding.ToMediaType success predicate
on the --output value.  The cases are in source order; hasKey, hasVersion,
hasKeyPrefix, hasFields and hasTemplate are inlined.  Note that hasFields
compares the --fields value against the default value of the flag. -/
def extractValidateAndRun (ok : String → Bool) (o : ExtractOptions) : ExtractAction :=
  if ok o.out then
    if o.leafItem then
      if o.metaSummary then .leafItemMetaSummary
      else if o.printKey then .leafItemPrintKey
      else .leafItemValue
    else if o.key != "" && o.keyPref != "" then
      .usageError "--keys-by-prefix and --key may not be used together"
    else if o.key != "" && o.listVersions then
      .printVersionsOp o.filename o.key
    else if o.key != "" then
      .printValueOp o.filename o.key o.version o.raw
    else if o.listVersions then
      .usageError "--list-versions may only be used with --key"
    else if o.version != "" then
      .usageError "--version may only be used with --key"
    else if o.template != "" && o.fields != Key then
      .usageError "--template and --fields may not be used together"
    else if o.template != "" then
      .templateSummariesOp o.filename o.keyPref o.template
    else
      .printKeySummariesOp o.filename o.keyPref (o.fields.splitOn ",")
  else .invalidOutput o.out

/-- Statistics block of a key summary (KeySummaryStats of extract.go);
Go int counters are modelled as Nat since they only accumulate lengths. -/
structure KeySummaryStats where
  VersionCount : Nat
  KeySize : Nat
  ValueSize : Nat
  AllVersionsKeySize : Nat
  AllVersionsValueSize : Nat
deriving DecidableEq, Repr

/-- One aggregated view per logical key (KeySummary of extract.go).  The
types `DV` and `TM` are the results of the external decoding boundary: `DV`
is the structured value produced by convert plus rawJsonUnmarshal, `TM` the
runtime.TypeMeta; both are nullable in Go, hence Option. -/
structure KeySummary (DV TM : Type) where
  Key : List Nat
  Version : Int
  Value : Option DV
  TypeMeta : Option TM
  Stats : KeySummaryStats
deriving DecidableEq, Repr

/-- The summary built on the first sighting of a key inside the visitor of
listKeySummaries (extract.go).  `dv` is the external decoding
boundary: applied to the value bytes it yields the structured value and the
type metadata (each possibly missing when decoding fails). -/
def newSummary {DV TM : Type} (dv : List Nat → Option DV × Option TM)
    (kv : KeyValue) : KeySummary DV TM :=
  { Key := kv.key
    Version := kv.version
    Value := (dv kv.value).1
    TypeMeta := (dv kv.value).2
    Stats :=
      { VersionCount := 1
        KeySize := kv.key.length
        ValueSize := kv.value.length
        AllVersionsKeySize := kv.key.length
        AllVersionsValueSize := kv.value.length } }

/-- The update performed on a later sighting of an already-seen key inside
the visitor of listKeySummaries (extract.go): when the new version is
greater, Version and Stats.ValueSize are replaced (the decoded Value and
TypeMeta are not touched); the version count and cumulative sizes always
grow. -/
def updateSummary {DV TM : Type} (kv : KeyValue) (ks : KeySummary DV TM) :
    KeySummary DV TM :=
  let ks1 :=
    if kv.version > ks.Version then
      { ks with Version := kv.version, Stats := { ks.Stats with ValueSize := kv.value.length } }
    else ks
  { ks1 with Stats :=
      { ks1.Stats with
          VersionCount := ks1.Stats.VersionCount + 1
          AllVersionsKeySize := ks1.Stats.AllVersionsKeySize + kv.key.length
          AllVersionsValueSize := ks1.Stats.AllVersionsValueSize + kv.value.length } }

/-- The map write of the visitor of listKeySummaries: the Go map m keyed by
the record key is modelled as a list of summaries with pairwise distinct
Key fields, in insertion order (the final sort makes the iteration order of
the Go map irrelevant).  The first summary whose Key equals the record key
is updated in place; if none exists the new summary is appended. -/
def insertOrUpdate {DV TM : Type} (dv : List Nat → Option DV × Option TM)
    (kv : KeyValue) : List (KeySummary DV TM) → List (KeySummary DV TM)
  | [] => [newSummary dv kv]
  | ks :: rest =>
    if ks.Key == kv.key then updateSummary kv ks :: rest
    else ks :: insertOrUpdate dv kv rest

/-- One visitor invocation of listKeySummaries (extract.go): records whose
key does not start with the requested byte prefix are ignored. -/
def aggStep {DV TM : Type} (dv : List Nat → Option DV × Option TM)
    (pref : List Nat) (m : List (KeySummary DV TM)) (kv : KeyValue) :
    List (KeySummary DV TM) :=
  if pref.isPrefixOf kv.key then insertOrUpdate dv kv m else m

/-- Byte-wise comparison of keys: strings.Compare(a, b) <= 0 of
extract.go, the comparator passed to sort.Slice in getSortedKeySummaries. -/
def keyCompareLe : List Nat → List Nat → Bool
  | [], _ => true
  | _ :: _, [] => false
  | a :: as, b :: bs => if a < b then true else if b < a then false else keyCompareLe as bs

/-- Strict byte-wise lexicographic order on keys (strings.Compare(a, b) < 0),
used to state the strict-sortedness claims. -/
def keyLtB : List Nat → List Nat → Bool
  | [], [] => false
  | [], _ :: _ => true
  | _ :: _, [] => false
  | a :: as, b :: bs => if a < b then true else if b < a then false else keyLtB as bs

/-- Insert a summary into a list sorted by keyCompareLe, keeping it sorted. -/
def orderedInsert {DV TM : Type} (ks : KeySummary DV TM) :
    List (KeySummary DV TM) → List (KeySummary DV TM)
  | [] => [ks]
  | b :: rest =>
    if keyCompareLe ks.Key b.Key then ks :: b :: rest
    else b :: orderedInsert ks rest

/-- Embedding of getSortedKeySummaries (extract.go): the summaries of the
working map, sorted with the comparator strings.Compare(key_i, key_j) <= 0.
Since the map keys are pairwise distinct, the sorted arrangement is unique,
so the (algorithm-unspecified, map-iteration-order independent) sort.Slice
of the source is modelled by an insertion sort with the same comparator. -/
def getSortedKeySummaries {DV TM : Type} :
    List (KeySummary DV TM) → List (KeySummary DV TM)
  | [] => []
  | a :: rest => orderedInsert a (getSortedKeySummaries rest)

/-- Embedding of listKeySummaries (extract.go), specialised to a store whose
entries are already decoded records (on such a store the walk visits every
record in physical order and never fails, so it is the fold of the visitor
body).  `dv` is the external decoding boundary used for the structured
value, `pref` the requested key prefix. -/
def listKeySummaries {DV TM : Type} (dv : List Nat → Option DV × Option TM)
    (store : List KeyValue) (pref : List Nat) : List (KeySummary DV TM) :=
  getSortedKeySummaries (store.foldl (aggStep dv pref) [])

/-- Field loop of summarize (extract.go): each requested field is rendered
in order; the first unrecognized field name aborts with the unrecognized
field error.  `marshal` is the external rawJsonMarshal boundary rendering
the structured value. -/
def summarizeFields {DV TM : Type} (marshal : Option DV → String)
    (s : KeySummary DV TM) : List String → Except GoError (List String)
  | [] => .ok []
  | f :: fs =>
    if f = Key then (summarizeFields marshal s fs).map (fun vs => bytesToString s.Key :: vs)
    else if f = ValueSize then
      (summarizeFields marshal s fs).map (fun vs => toString s.Stats.ValueSize :: vs)
    else if f = AllVersionsValueSize then
      (summarizeFields marshal s fs).map (fun vs => toString s.Stats.AllVersionsValueSize :: vs)
    else if f = VersionCount then
      (summarizeFields marshal s fs).map (fun vs => toString s.Stats.VersionCount :: vs)
    else if f = Value then
      (summarizeFields marshal s fs).map (fun vs => marshal s.Value :: vs)
    else .error (.unrecognizedField f)

/-- Embedding of summarize (extract.go): the rendered fields joined with a
single space. -/
def summarize {DV TM : Type} (marshal : Option DV → String)
    (s : KeySummary DV TM) (fields : List String) : Except GoError String :=
  (summarizeFields marshal s fields).map (fun vs => String.intercalate " " vs)

/-- Output loop of printKeySummaries (extract.go): one line per summary; a
summarize failure stops the loop and surfaces the error, lines written
before the failure stay written. -/
def printSummariesLoop {DV TM : Type} (marshal : Option DV → String)
    (fields : List String) : List (KeySummary DV TM) → List String × Option GoError
  | [] => ([], none)
  | s :: rest =>
    match summarize marshal s fields with
    | .error e => ([], some e)
    | .ok line =>
      let r := printSummariesLoop marshal fields rest
      (line :: r.1, r.2)

/-- Embedding of printKeySummaries (extract.go): an empty field list fails
up front; otherwise the summaries of the store under the prefix are
rendered one line each.  The first component is the list of lines written
to the output sink. -/
def printKeySummaries {DV TM : Type} (dv : List Nat → Option DV × Option TM)
    (marshal : Option DV → String) (store : List KeyValue) (pref : List Nat)
    (fields : List String) : List String × Option GoError :=
  if fields.length = 0 then ([], some (.other "no fields provided, nothing to output."))
  else printSummariesLoop marshal fields (listKeySummaries dv store pref)

/-- The per-key accumulation step seen from a fixed key: how the optional
summary stored under that key in the working map evolves when one more
record with that key arrives (used to state the fold characterisation of
the aggregator). -/
def optStep {DV TM : Type} (dv : List Nat → Option DV × Option TM)
    (o : Option (KeySummary DV TM)) (kv : KeyValue) : Option (KeySummary DV TM) :=
  match o with
  | none => some (newSummary dv kv)
  | some ks => some (updateSummary kv ks)

/-- Lookup of the summary stored under key k in the working map. -/
def findByKey {DV TM : Type} (k : List Nat) (m : List (KeySummary DV TM)) :
    Option (KeySummary DV TM) :=
  m.find? (fun ks => ks.Key == k)

/-- The working map stores at most one summary per key. -/
def KeysNodup {DV TM : Type} (m : List (KeySummary DV TM)) : Prop :=
  (m.map (fun ks => ks.Key)).Nodup

/-- A concrete decoding boundary for witnesses: decoding always succeeds and
returns the value bytes themselves. -/
def dvId : List Nat → Option (List Nat) × Option (List Nat) :=
  fun v => (some v, some v)

/-- A concrete rawJsonMarshal boundary for witnesses. -/
def marshal0 : Option (List Nat) → String :=
  fun _ => "null"

/-- A concrete conversion boundary for witnesses. -/
def conv0 : List Nat → Except GoError String :=
  fun _ => .ok ""

/-- A concrete encoding.ToMediaType success predicate accepting every
--output value (in particular the default yaml). -/
def mediaOkAll : String → Bool :=
  fun _ => true

/-- A concrete record for the walk scenarios: key a, value x, version 1. -/
def kvW : KeyValue :=
  { key := [97], value := [120], version := 1
    createRevision := 0, modRevision := 0, lease := 0 }

/-- A record decoder that always succeeds with kvW. -/
def decOkW : Unit → Except GoError KeyValue :=
  fun _ => .ok kvW

/-- A record decoder that always fails with a raw unmarshal error carrying
no key information. -/
def decBadW : Unit → Except GoError KeyValue :=
  fun _ => .error (.other "unexpected EOF")

/-- A visitor that returns its own error on every record. -/
def visitorErrW : Unit → KeyValue → Unit × Bool × Option GoError :=
  fun s _ => (s, false, some (.other "boom"))

/-- A visitor that never stops and never errors. -/
def visitorOkW : Unit → KeyValue → Unit × Bool × Option GoError :=
  fun s _ => (s, false, none)

/-- Store for the stale-decoded-value scenario: key a first arrives with
version 1 and value x, then with version 2 and the longer value xy. -/
def storeC1 : List KeyValue :=
  [ { key := [97], value := [120], version := 1
      createRevision := 0, modRevision := 0, lease := 0 }
  , { key := [97], value := [120, 121], version := 2
      createRevision := 0, modRevision := 0, lease := 0 } ]

/-- Store whose only key a carries the three negative versions -3 < -2 < -1. -/
def storeC6 : List KeyValue :=
  [ { key := [97], value := [120], version := -3
      createRevision := 0, modRevision := 0, lease := 0 }
  , { key := [97], value := [121], version := -2
      createRevision := 0, modRevision := 0, lease := 0 }
  , { key := [97], value := [122], version := -1
      createRevision := 0, modRevision := 0, lease := 0 } ]

/-- Store where key a has versions 1, 2, 3 arriving out of order, with a
second key b interleaved. -/
def storeC6w : List KeyValue :=
  [ { key := [97], value := [120], version := 2
      createRevision := 0, modRevision := 0, lease := 0 }
  , { key := [98], value := [5], version := 9
      createRevision := 0, modRevision := 0, lease := 0 }
  , { key := [97], value := [121], version := 3
      createRevision := 0, modRevision := 0, lease := 0 }
  , { key := [97], value := [122], version := 1
      createRevision := 0, modRevision := 0, lease := 0 } ]

/-- Store holding a single record whose stored value is empty, at key a and
version 5. -/
def storeC10 : List KeyValue :=
  [ { key := [97], value := [], version := 5
      createRevision := 0, modRevision := 0, lease := 0 } ]

/-- Options carrying --key, --list-versions and --version together. -/
def optsKeyListVer : ExtractOptions :=
  { out := "yaml", filename := "f", key := "k", version := "7", keyPref := ""
    listVersions := true, leafItem := false, printKey := false
    metaSummary := false, raw := false, fields := "key", template := "" }

/-- Options carrying --list-versions and --version without --key. -/
def optsListVerNoKey : ExtractOptions :=
  { out := "yaml", filename := "f", key := "", version := "7", keyPref := ""
    listVersions := true, leafItem := false, printKey := false
    metaSummary := false, raw := false, fields := "key", template := "" }

/-- Options carrying a template together with the field list value key (the
default value of --fields, hence also what an explicit --fields=key sets). -/
def optsTemplateFieldsKey : ExtractOptions :=
  { out := "yaml", filename := "f", key := "", version := "", keyPref := ""
    listVersions := false, leafItem := false, printKey := false
    metaSummary := false, raw := false, fields := "key", template := "T" }

/-- Options carrying a template together with a non-default field list. -/
def optsTemplateFields : ExtractOptions :=
  { out := "yaml", filename := "f", key := "", version := "", keyPref := ""
    listVersions := false, leafItem := false, printKey := false
    metaSummary := false, raw := false, fields := "value-size", template := "T" }

/-- C3 (amended): when the visitor returns an error at a record, walk halts
at that record (the remainder of the store is never visited) and the caller
receives a freshly built error naming that record key; the error the
visitor returned is discarded. -/
theorem walk_visitor_error {α σ : Type} (dec : α → Except GoError KeyValue)
    (f : σ → KeyValue → σ × Bool × Option GoError) (v : α) (rest : List α) (s : σ)
    (kv : KeyValue) (e : GoError)
    (hdec : dec v = Except.ok kv) (herr : (f s kv).2.2 = some e) :
    walk dec f (v :: rest) s = Except.error (GoError.errorHandlingKey kv.key) := by
  rcases hfk : f s kv with ⟨s2, done, oe⟩
  rw [hfk] at herr
  simp only at herr
  subst herr
  simp [walk, hdec, hfk]

/-- Witness for walk_visitor_error at a concrete one-record store. -/
theorem walk_visitor_error_witness :
    walk decOkW visitorErrW [()] () = Except.error (GoError.errorHandlingKey kvW.key) :=
  walk_visitor_error decOkW visitorErrW () [] () kvW (GoError.other "boom") rfl rfl

/-- C3 counterexample: the visitor returns the error boom, but walk returns
the freshly built error naming the key, not that error. -/
theorem walk_discards_visitor_error :
    walk decOkW visitorErrW [()] () = Except.error (GoError.errorHandlingKey [97]) ∧
    GoError.errorHandlingKey [97] ≠ GoError.other "boom" :=
  ⟨rfl, by decide⟩

/-- C4 (amended): when an entry fails to decode, walk aborts at that entry
and returns the decoder error unchanged; the error carries no logical key
and is not wrapped. -/
theorem walk_decode_error {α σ : Type} (dec : α → Except GoError KeyValue)
    (f : σ → KeyValue → σ × Bool × Option GoError) (v : α) (rest : List α) (s : σ)
    (e : GoError) (hdec : dec v = Except.error e) :
    walk dec f (v :: rest) s = Except.error e := by
  simp [walk, hdec]

/-- Witness for walk_decode_error at a concrete one-entry store. -/
theorem walk_decode_error_witness :
    walk decBadW visitorOkW [()] () = Except.error (GoError.other "unexpected EOF") :=
  walk_decode_error decBadW visitorOkW () [] () (GoError.other "unexpected EOF") rfl

/-- C4 counterexample: an entry whose bytes fail to decode with the raw
error unexpected EOF makes walk return exactly that raw error, which does
not identify any logical key. -/
theorem walk_returns_raw_decode_error :
    walk decBadW visitorOkW [()] () = Except.error (GoError.other "unexpected EOF") ∧
    GoError.isErrorHandlingKey (GoError.other "unexpected EOF") = false :=
  ⟨rfl, rfl⟩

/-- C2 (amended): with a valid --output, no --leaf-item and no --key,
combining --list-versions with --version fails with the usage error that
--list-versions may only be used with --key, before any store I/O. -/
theorem extract_listVersions_with_version_usage (ok : String → Bool) (o : ExtractOptions)
    (hout : ok o.out = true) (hleaf : o.leafItem = false) (hkey : o.key = "")
    (hlv : o.listVersions = true) (hver : o.version ≠ "") :
    extractValidateAndRun ok o =
      ExtractAction.usageError "--list-versions may only be used with --key" := by
  simp [extractValidateAndRun, hout, hleaf, hkey, hlv]

/-- Witness for extract_listVersions_with_version_usage at concrete options. -/
theorem extract_listVersions_with_version_usage_witness :
    mediaOkAll optsListVerNoKey.out = true ∧ optsListVerNoKey.version ≠ "" ∧
    extractValidateAndRun mediaOkAll optsListVerNoKey =
      ExtractAction.usageError "--list-versions may only be used with --key" :=
  ⟨rfl, by decide,
    extract_listVersions_with_version_usage mediaOkAll optsListVerNoKey rfl rfl rfl rfl
      (by decide)⟩

/-- C2 counterexample: with --key also set, --list-versions plus --version
dispatches to the version-listing operation (store I/O), not to a usage
error; --version is silently ignored. -/
theorem extract_key_listVersions_version_runs :
    extractValidateAndRun mediaOkAll optsKeyListVer = ExtractAction.printVersionsOp "f" "k" ∧
    ExtractAction.isUsageError (extractValidateAndRun mediaOkAll optsKeyListVer) = false := by
  constructor <;> rfl

/-- C5 (amended): with a valid --output, no --leaf-item and no --key, a
non-empty --template combined with a --fields value different from the
default value key fails with a usage error before any store I/O.  (An
explicit --fields=key is indistinguishable from the default and proceeds
with template rendering; with --key or --leaf-item set those modes win.) -/
theorem extract_template_fields_usage (ok : String → Bool) (o : ExtractOptions)
    (hout : ok o.out = true) (hleaf : o.leafItem = false) (hkey : o.key = "")
    (htmpl : o.template ≠ "") (hfields : o.fields ≠ "key") :
    ExtractAction.isUsageError (extractValidateAndRun ok o) = true := by
  by_cases hl : o.listVersions
  · simp [extractValidateAndRun, hout, hleaf, hkey, hl, ExtractAction.isUsageError]
  · by_cases hv : o.version = ""
    · simp [extractValidateAndRun, hout, hleaf, hkey, hl, hv, Key, htmpl, hfields,
        ExtractAction.isUsageError]
    · simp [extractValidateAndRun, hout, hleaf, hkey, hl, hv, ExtractAction.isUsageError]

/-- Witness for extract_template_fields_usage at concrete options. -/
theorem extract_template_fields_usage_witness :
    optsTemplateFields.template ≠ "" ∧ optsTemplateFields.fields ≠ "key" ∧
    ExtractAction.isUsageError (extractValidateAndRun mediaOkAll optsTemplateFields) = true :=
  ⟨by decide, by decide,
    extract_template_fields_usage mediaOkAll optsTemplateFields rfl rfl rfl (by decide)
      (by decide)⟩

/-- C5 counterexample: a non-empty --template together with the field list
value key (exactly what an explicitly supplied --fields=key produces)
dispatches to template rendering, not to a usage error. -/
theorem extract_template_with_default_fields_runs :
    extractValidateAndRun mediaOkAll optsTemplateFieldsKey =
      ExtractAction.templateSummariesOp "f" "" "T" ∧
    ExtractAction.isUsageError (extractValidateAndRun mediaOkAll optsTemplateFieldsKey) = false := by
  constructor <;> rfl

/-- C10: if the record matching the requested key and the resolved version
exists but its stored value is empty, printValue fails with the 0 byte
value error and writes nothing; the resolved version is either the explicit
selector or the maxInSlice of the enumerated versions. -/
theorem printValue_zero_byte (store : List KeyValue) (key : List Nat)
    (vsel : Option Int) (raw : Bool) (conv : List Nat → Except GoError String) (v : Int)
    (hres : vsel = some v ∨
      (vsel = none ∧ listVersions store key ≠ [] ∧ v = maxInSlice (listVersions store key)))
    (hget : getValue store key v = Except.ok []) :
    printValue store key vsel raw conv = ([], some GoError.zeroByteValue) := by
  have hat : printValueAt store key v raw conv = ([], some GoError.zeroByteValue) := by
    simp [printValueAt, hget]
  rcases hres with h | ⟨hnone, hne, hv⟩
  · subst h
    simpa [printValue] using hat
  · subst hnone
    have hlen : ¬ (listVersions store key).length = 0 := by
      simpa [List.length_eq_zero] using hne
    simp only [printValue, hlen, if_false]
    rw [← hv]
    exact hat

/-- Witness for printValue_zero_byte: key a exists at version 5 with an
empty value and extraction fails with the 0 byte value error. -/
theorem printValue_zero_byte_witness :
    getValue storeC10 [97] 5 = Except.ok [] ∧
    printValue storeC10 [97] (some 5) false conv0 = ([], some GoError.zeroByteValue) :=
  ⟨rfl, printValue_zero_byte storeC10 [97] (some 5) false conv0 5 (Or.inl rfl) rfl⟩

/-- C1 (code evaluation at the failing input): after key a arrives with
version 1 and value x and then with version 2 and value xy, the aggregated
summary reports Version 2 and ValueSize 2 but still carries the decoded
value of the version-1 bytes, although the decoding boundary decodes the
version-2 bytes to a different value. -/
theorem listKeySummaries_keeps_first_decoded_value :
    (listKeySummaries dvId storeC1 []).map (fun ks => (ks.Version, ks.Value, ks.Stats.ValueSize)) =
      [(2, some [120], 2)] ∧
    (dvId [120, 121]).1 = some [120, 121] ∧
    some [120] ≠ some [120, 121] :=
  ⟨by decide, rfl, by decide⟩

/-- C6 counterexample: for a store whose key a has exactly the versions
-3 < -2 < -1, maxInSlice of listVersions returns 0, not the highest
version -1, because maxInSlice starts its running maximum at 0. -/
theorem maxInSlice_negative_versions :
    listVersions storeC6 [97] = [-3, -2, -1] ∧
    maxInSlice (listVersions storeC6 [97]) = 0 ∧ (0 : Int) ≠ -1 :=
  ⟨by decide, by decide, by decide⟩

/-- C9 counterexample: on an empty store the listing with the field list
bogus succeeds with no output and no error, because summarize is never
invoked when there are no summaries. -/
theorem printKeySummaries_bogus_empty_store :
    printKeySummaries dvId marshal0 [] [] ["bogus"] = ([], none) := by
  rfl

theorem maxInSlice_eq_foldl (s : List Int) : maxInSlice s = s.foldl maxStep 0 := rfl

theorem le_maxStep_left (r e : Int) : r ≤ maxStep r e := by
  unfold maxStep
  split
  · omega
  · exact le_refl r

theorem le_maxStep_right (r e : Int) : e ≤ maxStep r e := by
  unfold maxStep
  split
  · exact le_refl e
  · omega

theorem foldl_maxStep_bounds :
    ∀ (l : List Int) (init : Int),
      init ≤ l.foldl maxStep init ∧ ∀ x ∈ l, x ≤ l.foldl maxStep init
  | [], init => ⟨le_refl _, by simp⟩
  | e :: t, init => by
    rcases foldl_maxStep_bounds t (maxStep init e) with ⟨h1, h2⟩
    refine ⟨le_trans (le_maxStep_left init e) h1, ?_⟩
    intro x hx
    rcases List.mem_cons.mp hx with rfl | hx
    · exact le_trans (le_maxStep_right init x) h1
    · exact h2 x hx

theorem foldl_maxStep_attained :
    ∀ (l : List Int) (init : Int),
      l.foldl maxStep init = init ∨ l.foldl maxStep init ∈ l
  | [], _ => Or.inl rfl
  | e :: t, init => by
    rcases foldl_maxStep_attained t (maxStep init e) with h | h
    · rw [List.foldl_cons, h]
      unfold maxStep
      split
      · exact Or.inr (List.mem_cons_self _ _)
      · exact Or.inl rfl
    · exact Or.inr (List.mem_cons_of_mem _ (by simpa using h))

theorem listVersions_eq_aux (key : List Nat) :
    ∀ (store : List KeyValue) (acc : List Int),
      store.foldl (fun result kv => if kv.key == key then result ++ [kv.version] else result) acc =
        acc ++ (store.filter (fun kv => kv.key == key)).map (fun kv => kv.version)
  | [], acc => by simp
  | kv :: rest, acc => by
    by_cases h : kv.key = key
    · simp only [List.foldl_cons, List.filter_cons]
      rw [if_pos (by simpa [beq_iff_eq] using h), if_pos (by simpa [beq_iff_eq] using h)]
      rw [listVersions_eq_aux key rest (acc ++ [kv.version])]
      simp
    · simp only [List.foldl_cons, List.filter_cons]
      rw [if_neg (by simpa [beq_iff_eq] using h), if_neg (by simpa [beq_iff_eq] using h)]
      exact listVersions_eq_aux key rest acc

theorem listVersions_eq (store : List KeyValue) (key : List Nat) :
    listVersions store key =
      (store.filter (fun kv => kv.key == key)).map (fun kv => kv.version) := by
  unfold listVersions
  have h := listVersions_eq_aux key store []
  simpa using h

theorem keyCompareLe_total : ∀ a b : List Nat, keyCompareLe a b = true ∨ keyCompareLe b a = true
  | [], _ => Or.inl rfl
  | _ :: _, [] => Or.inr rfl
  | a :: as, b :: bs => by
    rcases Nat.lt_trichotomy a b with h | h | h
    · exact Or.inl (by simp [keyCompareLe, h])
    · subst h
      rcases keyCompareLe_total as bs with ih | ih
      · exact Or.inl (by simp [keyCompareLe, Nat.lt_irrefl, ih])
      · exact Or.inr (by simp [keyCompareLe, Nat.lt_irrefl, ih])
    · exact Or.inr (by simp [keyCompareLe, h])

theorem keyCompareLe_trans :
    ∀ a b c : List Nat, keyCompareLe a b = true → keyCompareLe b c = true →
      keyCompareLe a c = true
  | [], _, _, _, _ => rfl
  | _ :: _, [], _, hab, _ => by simp [keyCompareLe] at hab
  | _ :: _, _ :: _, [], _, hbc => by simp [keyCompareLe] at hbc
  | a :: as, b :: bs, c :: cs, hab, hbc => by
    rcases Nat.lt_trichotomy b c with h2 | h2 | h2
    · rcases Nat.lt_trichotomy a b with h1 | h1 | h1
      · simp [keyCompareLe, Nat.lt_trans h1 h2]
      · subst h1
        simp [keyCompareLe, h2]
      · exfalso
        simp [keyCompareLe, Nat.lt_asymm h1, h1] at hab
    · subst h2
      rcases Nat.lt_trichotomy a b with h1 | h1 | h1
      · simp [keyCompareLe, h1]
      · subst h1
        have hab' : keyCompareLe as bs = true := by
          simpa [keyCompareLe, Nat.lt_irrefl] using hab
        have hbc' : keyCompareLe bs cs = true := by
          simpa [keyCompareLe, Nat.lt_irrefl] using hbc
        simpa [keyCompareLe, Nat.lt_irrefl] using keyCompareLe_trans as bs cs hab' hbc'
      · exfalso
        simp [keyCompareLe, Nat.lt_asymm h1, h1] at hab
    · exfalso
      simp [keyCompareLe, Nat.lt_asymm h2, h2] at hbc

theorem keyLtB_of_le_ne :
    ∀ a b : List Nat, keyCompareLe a b = true → a ≠ b → keyLtB a b = true
  | [], [], _, hne => absurd rfl hne
  | [], _ :: _, _, _ => rfl
  | _ :: _, [], hle, _ => by simp [keyCompareLe] at hle
  | a :: as, b :: bs, hle, hne => by
    rcases Nat.lt_trichotomy a b with h | h | h
    · simp [keyLtB, h]
    · subst h
      have hne' : as ≠ bs := fun hh => hne (by rw [hh])
      have hle' : keyCompareLe as bs = true := by
        simpa [keyCompareLe, Nat.lt_irrefl] using hle
      simpa [keyLtB, Nat.lt_irrefl] using keyLtB_of_le_ne as bs hle' hne'
    · exfalso
      simp [keyCompareLe, Nat.lt_asymm h, h] at hle

theorem keyLtB_asymm :
    ∀ a b : List Nat, keyLtB a b = true → keyLtB b a = true → False
  | [], [], h, _ => by simp [keyLtB] at h
  | [], _ :: _, _, h2 => by simp [keyLtB] at h2
  | _ :: _, [], h1, _ => by simp [keyLtB] at h1
  | a :: as, b :: bs, h1, h2 => by
    rcases Nat.lt_trichotomy a b with h | h | h
    · simp [keyLtB, Nat.lt_asymm h, h] at h2
    · subst h
      have h1' : keyLtB as bs = true := by simpa [keyLtB, Nat.lt_irrefl] using h1
      have h2' : keyLtB bs as = true := by simpa [keyLtB, Nat.lt_irrefl] using h2
      exact keyLtB_asymm as bs h1' h2'
    · simp [keyLtB, Nat.lt_asymm h, h] at h1

theorem keyLtB_ne (a b : List Nat) (h : keyLtB a b = true) : a ≠ b := by
  intro hab
  subst hab
  exact keyLtB_asymm a a h h

theorem orderedInsert_perm {DV TM : Type} (ks : KeySummary DV TM) :
    ∀ l, (orderedInsert ks l).Perm (ks :: l)
  | [] => List.Perm.refl _
  | b :: rest => by
    by_cases hc : keyCompareLe ks.Key b.Key = true
    · simp [orderedInsert, hc]
    · simp only [orderedInsert, hc, if_false]
      exact ((orderedInsert_perm ks rest).cons b).trans (List.Perm.swap ks b rest)

theorem getSortedKeySummaries_perm {DV TM : Type} :
    ∀ l : List (KeySummary DV TM), (getSortedKeySummaries l).Perm l
  | [] => List.Perm.refl _
  | a :: rest =>
    (orderedInsert_perm a (getSortedKeySummaries rest)).trans
      ((getSortedKeySummaries_perm rest).cons a)

theorem orderedInsert_pairwise {DV TM : Type} (ks : KeySummary DV TM) :
    ∀ l, List.Pairwise (fun x y => keyCompareLe x.Key y.Key = true) l →
      List.Pairwise (fun x y => keyCompareLe x.Key y.Key = true) (orderedInsert ks l)
  | [], _ => by simp [orderedInsert]
  | b :: rest, hp => by
    rcases List.pairwise_cons.mp hp with ⟨hb, hrest⟩
    by_cases hc : keyCompareLe ks.Key b.Key = true
    · simp only [orderedInsert, hc, if_true]
      refine List.pairwise_cons.mpr ⟨?_, hp⟩
      intro x hx
      rcases List.mem_cons.mp hx with rfl | hx
      · exact hc
      · exact keyCompareLe_trans _ _ _ hc (hb x hx)
    · simp only [orderedInsert, hc, if_false]
      refine List.pairwise_cons.mpr ⟨?_, orderedInsert_pairwise ks rest hrest⟩
      intro x hx
      have hx' := (orderedInsert_perm ks rest).mem_iff.mp hx
      rcases List.mem_cons.mp hx' with rfl | hx'
      · rcases keyCompareLe_total x.Key b.Key with h | h
        · exact absurd h hc
        · exact h
      · exact hb x hx'

theorem getSortedKeySummaries_pairwise {DV TM : Type} :
    ∀ l : List (KeySummary DV TM),
      List.Pairwise (fun x y => keyCompareLe x.Key y.Key = true) (getSortedKeySummaries l)
  | [] => List.Pairwise.nil
  | a :: rest => orderedInsert_pairwise a _ (getSortedKeySummaries_pairwise rest)

theorem updateSummary_Key {DV TM : Type} (kv : KeyValue) (ks : KeySummary DV TM) :
    (updateSummary kv ks).Key = ks.Key := by
  simp only [updateSummary]
  split <;> rfl

theorem updateSummary_Version {DV TM : Type} (kv : KeyValue) (ks : KeySummary DV TM) :
    (updateSummary kv ks).Version = maxStep ks.Version kv.version := by
  simp only [updateSummary, maxStep]
  split <;> rfl

theorem updateSummary_VersionCount {DV TM : Type} (kv : KeyValue) (ks : KeySummary DV TM) :
    (updateSummary kv ks).Stats.VersionCount = ks.Stats.VersionCount + 1 := by
  simp only [updateSummary]
  split <;> rfl


theorem findByKey_nil {DV TM : Type} (k : List Nat) :
    findByKey k ([] : List (KeySummary DV TM)) = none := rfl

theorem findByKey_cons {DV TM : Type} (k : List Nat) (ks : KeySummary DV TM) (rest) :
    findByKey k (ks :: rest) = if ks.Key = k then some ks else findByKey k rest := by
  by_cases h : ks.Key = k
  · simp [findByKey, List.find?_cons_of_pos, h]
  · simp [findByKey, List.find?_cons_of_neg, h]

theorem newSummary_Key {DV TM : Type} (dv : List Nat → Option DV × Option TM) (kv : KeyValue) :
    (newSummary dv kv).Key = kv.key := rfl

theorem findByKey_insertOrUpdate {DV TM : Type} (dv : List Nat → Option DV × Option TM)
    (kv : KeyValue) (k : List Nat) (m : List (KeySummary DV TM)) :
    findByKey k (insertOrUpdate dv kv m) =
      if kv.key = k then optStep dv (findByKey k m) kv else findByKey k m := by
  induction m with
  | nil =>
    by_cases h : kv.key = k <;>
      simp [insertOrUpdate, findByKey_cons, newSummary_Key, h, optStep, findByKey_nil]
  | cons ks rest ih =>
    by_cases hks : ks.Key = kv.key
    · have hiu : insertOrUpdate dv kv (ks :: rest) = updateSummary kv ks :: rest := by
        simp [insertOrUpdate, hks]
      rw [hiu]
      by_cases h : kv.key = k
      · simp [findByKey_cons, updateSummary_Key, hks, h, optStep]
      · simp [findByKey_cons, updateSummary_Key, hks, h]
    · have hiu : insertOrUpdate dv kv (ks :: rest) = ks :: insertOrUpdate dv kv rest := by
        simp [insertOrUpdate, hks]
      rw [hiu]
      by_cases hk2 : ks.Key = k
      · have hkvk : ¬ kv.key = k := fun hh => hks (hk2.trans hh.symm)
        simp [findByKey_cons, hk2, hkvk]
      · simp [findByKey_cons, hk2, ih]

theorem findByKey_foldl_aggStep {DV TM : Type} (dv : List Nat → Option DV × Option TM)
    (pref k : List Nat) (hk : pref.isPrefixOf k = true) :
    ∀ (store : List KeyValue) (m : List (KeySummary DV TM)),
      findByKey k (store.foldl (aggStep dv pref) m) =
        (store.filter (fun kv => kv.key == k)).foldl (optStep dv) (findByKey k m)
  | [], _ => rfl
  | kv :: rest, m => by
    rw [List.foldl_cons]
    by_cases hkey : kv.key = k
    · have hp : pref.isPrefixOf kv.key = true := by rw [hkey]; exact hk
      have ha : aggStep dv pref m kv = insertOrUpdate dv kv m := by simp [aggStep, hp]
      have hfil : (kv :: rest).filter (fun kv => kv.key == k) =
          kv :: rest.filter (fun kv => kv.key == k) := by
        simp [List.filter_cons, hkey]
      rw [ha, hfil, List.foldl_cons,
        findByKey_foldl_aggStep dv pref k hk rest (insertOrUpdate dv kv m),
        findByKey_insertOrUpdate, if_pos hkey]
    · have hfil : (kv :: rest).filter (fun kv => kv.key == k) =
          rest.filter (fun kv => kv.key == k) := by
        simp [List.filter_cons, hkey]
      rw [hfil]
      by_cases hp : pref.isPrefixOf kv.key = true
      · have ha : aggStep dv pref m kv = insertOrUpdate dv kv m := by simp [aggStep, hp]
        rw [ha, findByKey_foldl_aggStep dv pref k hk rest (insertOrUpdate dv kv m),
          findByKey_insertOrUpdate, if_neg hkey]
      · have ha : aggStep dv pref m kv = m := by simp [aggStep, hp]
        rw [ha]
        exact findByKey_foldl_aggStep dv pref k hk rest m

theorem findByKey_foldl_aggStep_noPref {DV TM : Type} (dv : List Nat → Option DV × Option TM)
    (pref k : List Nat) (hk : pref.isPrefixOf k = false) :
    ∀ (store : List KeyValue) (m : List (KeySummary DV TM)),
      findByKey k (store.foldl (aggStep dv pref) m) = findByKey k m
  | [], _ => rfl
  | kv :: rest, m => by
    rw [List.foldl_cons]
    by_cases hp : pref.isPrefixOf kv.key = true
    · have hkey : ¬ kv.key = k := by
        intro hh
        rw [hh] at hp
        rw [hp] at hk
        simp at hk
      have ha : aggStep dv pref m kv = insertOrUpdate dv kv m := by simp [aggStep, hp]
      rw [ha, findByKey_foldl_aggStep_noPref dv pref k hk rest (insertOrUpdate dv kv m),
        findByKey_insertOrUpdate, if_neg hkey]
    · have ha : aggStep dv pref m kv = m := by simp [aggStep, hp]
      rw [ha]
      exact findByKey_foldl_aggStep_noPref dv pref k hk rest m

theorem mem_keys_insertOrUpdate {DV TM : Type} (dv : List Nat → Option DV × Option TM)
    (kv : KeyValue) (m : List (KeySummary DV TM)) (x : List Nat)
    (hx : x ∈ (insertOrUpdate dv kv m).map (fun ks => ks.Key)) :
    x = kv.key ∨ x ∈ m.map (fun ks => ks.Key) := by
  induction m with
  | nil =>
    simp [insertOrUpdate, newSummary_Key] at hx
    exact Or.inl hx
  | cons ks rest ih =>
    by_cases hks : ks.Key = kv.key
    · rw [show insertOrUpdate dv kv (ks :: rest) = updateSummary kv ks :: rest from by
        simp [insertOrUpdate, hks]] at hx
      simp only [List.map_cons, List.mem_cons, updateSummary_Key] at hx
      rcases hx with hx | hx
      · exact Or.inr (by simp [hx])
      · exact Or.inr (by simp only [List.map_cons, List.mem_cons]; exact Or.inr hx)
    · rw [show insertOrUpdate dv kv (ks :: rest) = ks :: insertOrUpdate dv kv rest from by
        simp [insertOrUpdate, hks]] at hx
      simp only [List.map_cons, List.mem_cons] at hx
      rcases hx with hx | hx
      · exact Or.inr (by simp [hx])
      · rcases ih hx with h | h
        · exact Or.inl h
        · exact Or.inr (by simp only [List.map_cons, List.mem_cons]; exact Or.inr h)

theorem keysNodup_insertOrUpdate {DV TM : Type} (dv : List Nat → Option DV × Option TM)
    (kv : KeyValue) (m : List (KeySummary DV TM)) :
    KeysNodup m → KeysNodup (insertOrUpdate dv kv m) := by
  induction m with
  | nil =>
    intro _
    simp [KeysNodup, insertOrUpdate]
  | cons ks rest ih =>
    intro h
    rw [KeysNodup] at h
    simp only [List.map_cons, List.nodup_cons] at h
    obtain ⟨hni, hnd⟩ := h
    by_cases hks : ks.Key = kv.key
    · rw [show insertOrUpdate dv kv (ks :: rest) = updateSummary kv ks :: rest from by
        simp [insertOrUpdate, hks]]
      rw [KeysNodup]
      simp only [List.map_cons, List.nodup_cons, updateSummary_Key]
      exact ⟨hni, hnd⟩
    · rw [show insertOrUpdate dv kv (ks :: rest) = ks :: insertOrUpdate dv kv rest from by
        simp [insertOrUpdate, hks]]
      rw [KeysNodup]
      simp only [List.map_cons, List.nodup_cons]
      refine ⟨?_, ih hnd⟩
      intro hmem
      rcases mem_keys_insertOrUpdate dv kv rest ks.Key hmem with h | h
      · exact hks h
      · exact hni h

theorem keysNodup_foldl_aggStep {DV TM : Type} (dv : List Nat → Option DV × Option TM)
    (pref : List Nat) :
    ∀ (store : List KeyValue) (m : List (KeySummary DV TM)), KeysNodup m →
      KeysNodup (store.foldl (aggStep dv pref) m)
  | [], _, h => h
  | kv :: rest, m, h => by
    rw [List.foldl_cons]
    apply keysNodup_foldl_aggStep dv pref rest
    by_cases hp : pref.isPrefixOf kv.key = true
    · rw [show aggStep dv pref m kv = insertOrUpdate dv kv m from by simp [aggStep, hp]]
      exact keysNodup_insertOrUpdate dv kv m h
    · rw [show aggStep dv pref m kv = m from by simp [aggStep, hp]]
      exact h

theorem findByKey_mem {DV TM : Type} {k : List Nat} {m : List (KeySummary DV TM)}
    {a : KeySummary DV TM} (h : findByKey k m = some a) : a ∈ m ∧ a.Key = k := by
  have h' : m.find? (fun ks => ks.Key == k) = some a := h
  refine ⟨List.mem_of_find?_eq_some h', ?_⟩
  have := List.find?_some h'
  simpa [beq_iff_eq] using this

theorem findByKey_of_mem {DV TM : Type} :
    ∀ (m : List (KeySummary DV TM)), KeysNodup m →
      ∀ a ∈ m, ∀ k, a.Key = k → findByKey k m = some a
  | [], _, a, ha, _, _ => absurd ha (List.not_mem_nil a)
  | b :: rest, hnd, a, ha, k, hk => by
    rw [KeysNodup] at hnd
    simp only [List.map_cons, List.nodup_cons] at hnd
    obtain ⟨hni, hnd'⟩ := hnd
    rcases List.mem_cons.mp ha with rfl | ha
    · rw [findByKey_cons, if_pos hk]
    · by_cases hbk : b.Key = k
      · exfalso
        apply hni
        rw [hbk, ← hk]
        exact List.mem_map.mpr ⟨a, ha, rfl⟩
      · rw [findByKey_cons, if_neg hbk]
        exact findByKey_of_mem rest hnd' a ha k hk

theorem findByKey_perm {DV TM : Type} {m m' : List (KeySummary DV TM)}
    (hn : KeysNodup m) (hp : m.Perm m') (k : List Nat) :
    findByKey k m = findByKey k m' := by
  cases h : findByKey k m with
  | some a =>
    rcases findByKey_mem h with ⟨hmem, hk⟩
    have hn' : KeysNodup m' := by
      rw [KeysNodup] at hn ⊢
      exact (hp.map (fun ks => ks.Key)).nodup_iff.mp hn
    rw [findByKey_of_mem m' hn' a (hp.mem_iff.mp hmem) k hk]
  | none =>
    cases h' : findByKey k m' with
    | none => rfl
    | some b =>
      rcases findByKey_mem h' with ⟨hmem, hk⟩
      have hcontra := findByKey_of_mem m hn b (hp.mem_iff.mpr hmem) k hk
      rw [h] at hcontra
      exact absurd hcontra (by simp)

theorem findByKey_filter {DV TM : Type} (p : KeySummary DV TM → Bool) (k : List Nat) :
    ∀ l : List (KeySummary DV TM), (∀ a ∈ l, a.Key = k → p a = true) →
      findByKey k (l.filter p) = findByKey k l
  | [], _ => rfl
  | a :: t, h => by
    have ht : ∀ b ∈ t, b.Key = k → p b = true := fun b hb => h b (List.mem_cons_of_mem a hb)
    by_cases hak : a.Key = k
    · have hpa : p a = true := h a (List.mem_cons_self a t) hak
      rw [List.filter_cons, if_pos hpa, findByKey_cons, if_pos hak, findByKey_cons, if_pos hak]
    · by_cases hpa : p a = true
      · rw [List.filter_cons, if_pos hpa, findByKey_cons, if_neg hak, findByKey_cons, if_neg hak]
        exact findByKey_filter p k t ht
      · rw [List.filter_cons, if_neg hpa, findByKey_cons, if_neg hak]
        exact findByKey_filter p k t ht

theorem findByKey_ext {DV TM : Type} :
    ∀ l1 l2 : List (KeySummary DV TM),
      List.Pairwise (fun x y => keyLtB x.Key y.Key = true) l1 →
      List.Pairwise (fun x y => keyLtB x.Key y.Key = true) l2 →
      (∀ k, findByKey k l1 = findByKey k l2) → l1 = l2
  | [], [], _, _, _ => rfl
  | [], b :: _, _, _, h => by
    have hb := h b.Key
    rw [findByKey_nil, findByKey_cons, if_pos rfl] at hb
    exact absurd hb (by simp)
  | a :: t1, [], _, _, h => by
    have ha := h a.Key
    rw [findByKey_nil, findByKey_cons, if_pos rfl] at ha
    exact absurd ha (by simp)
  | a :: t1, b :: t2, h1, h2, h => by
    rcases List.pairwise_cons.mp h1 with ⟨ha1, ht1⟩
    rcases List.pairwise_cons.mp h2 with ⟨hb2, ht2⟩
    have hab : a.Key = b.Key := by
      by_contra hne
      have e1 : findByKey a.Key (a :: t1) = some a := by rw [findByKey_cons, if_pos rfl]
      have e2 : findByKey a.Key (b :: t2) = some a := (h a.Key).symm.trans e1
      rw [findByKey_cons, if_neg (fun hh => hne hh.symm)] at e2
      have hlt_ba : keyLtB b.Key a.Key = true := hb2 a (findByKey_mem e2).1
      have e3 : findByKey b.Key (b :: t2) = some b := by rw [findByKey_cons, if_pos rfl]
      have e4 : findByKey b.Key (a :: t1) = some b := (h b.Key).trans e3
      rw [findByKey_cons, if_neg hne] at e4
      have hlt_ab : keyLtB a.Key b.Key = true := ha1 b (findByKey_mem e4).1
      exact keyLtB_asymm _ _ hlt_ab hlt_ba
    have hae : a = b := by
      have e1 : findByKey a.Key (a :: t1) = some a := by rw [findByKey_cons, if_pos rfl]
      have e2 : findByKey a.Key (b :: t2) = some b := by rw [findByKey_cons, if_pos hab.symm]
      have e3 := (h a.Key).symm.trans e1
      rw [e2] at e3
      exact (Option.some.inj e3).symm
    subst hae
    have htails : t1 = t2 := by
      apply findByKey_ext t1 t2 ht1 ht2
      intro k
      by_cases hk : a.Key = k
      · have n1 : findByKey k t1 = none := by
          apply List.find?_eq_none.mpr
          intro x hx
          have hne := keyLtB_ne _ _ (ha1 x hx)
          simp only [beq_iff_eq]
          intro hh
          exact hne (hk.trans hh.symm)
        have n2 : findByKey k t2 = none := by
          apply List.find?_eq_none.mpr
          intro x hx
          have hne := keyLtB_ne _ _ (hb2 x hx)
          simp only [beq_iff_eq]
          intro hh
          exact hne (hk.trans hh.symm)
        rw [n1, n2]
      · have hk' := h k
        rw [findByKey_cons, if_neg hk, findByKey_cons, if_neg hk] at hk'
        exact hk'
    rw [htails]

theorem keysNodup_listKeySummaries {DV TM : Type} (dv : List Nat → Option DV × Option TM)
    (store : List KeyValue) (pref : List Nat) :
    KeysNodup (listKeySummaries dv store pref : List (KeySummary DV TM)) := by
  have hagg : KeysNodup (store.foldl (aggStep dv pref) ([] : List (KeySummary DV TM))) :=
    keysNodup_foldl_aggStep dv pref store [] (by simp [KeysNodup])
  rw [KeysNodup] at hagg ⊢
  exact ((getSortedKeySummaries_perm
    (store.foldl (aggStep dv pref) [])).map (fun ks => ks.Key)).nodup_iff.mpr hagg

theorem listKeySummaries_pairwise_lt {DV TM : Type} (dv : List Nat → Option DV × Option TM)
    (store : List KeyValue) (pref : List Nat) :
    List.Pairwise (fun x y : KeySummary DV TM => keyLtB x.Key y.Key = true)
      (listKeySummaries dv store pref) := by
  have hle : List.Pairwise (fun x y : KeySummary DV TM => keyCompareLe x.Key y.Key = true)
      (listKeySummaries dv store pref) :=
    getSortedKeySummaries_pairwise (store.foldl (aggStep dv pref) [])
  have hnd := keysNodup_listKeySummaries dv store pref
  rw [KeysNodup] at hnd
  have hne : List.Pairwise (fun x y : KeySummary DV TM => x.Key ≠ y.Key)
      (listKeySummaries dv store pref) := List.pairwise_map.mp hnd
  exact (hle.and hne).imp (fun h => keyLtB_of_le_ne _ _ h.1 h.2)

theorem findByKey_listKeySummaries {DV TM : Type} (dv : List Nat → Option DV × Option TM)
    (store : List KeyValue) (pref k : List Nat) :
    findByKey k (listKeySummaries dv store pref : List (KeySummary DV TM)) =
      findByKey k (store.foldl (aggStep dv pref) []) :=
  findByKey_perm (keysNodup_listKeySummaries dv store pref)
    (getSortedKeySummaries_perm (store.foldl (aggStep dv pref) [])) k

theorem foldl_optStep_some {DV TM : Type} (dv : List Nat → Option DV × Option TM) :
    ∀ (recs : List KeyValue) (ks : KeySummary DV TM),
      recs.foldl (optStep dv) (some ks) = some (recs.foldl (fun a r => updateSummary r a) ks)
  | [], _ => rfl
  | r :: rest, ks => by
    rw [List.foldl_cons, List.foldl_cons]
    exact foldl_optStep_some dv rest (updateSummary r ks)

theorem foldl_updateSummary_Key {DV TM : Type} :
    ∀ (recs : List KeyValue) (ks : KeySummary DV TM),
      (recs.foldl (fun a r => updateSummary r a) ks).Key = ks.Key
  | [], _ => rfl
  | r :: rest, ks => by
    rw [List.foldl_cons, foldl_updateSummary_Key rest (updateSummary r ks), updateSummary_Key]

theorem foldl_updateSummary_VersionCount {DV TM : Type} :
    ∀ (recs : List KeyValue) (ks : KeySummary DV TM),
      (recs.foldl (fun a r => updateSummary r a) ks).Stats.VersionCount =
        ks.Stats.VersionCount + recs.length
  | [], _ => rfl
  | r :: rest, ks => by
    rw [List.foldl_cons, foldl_updateSummary_VersionCount rest (updateSummary r ks),
      updateSummary_VersionCount, List.length_cons]
    omega

theorem foldl_updateSummary_Version {DV TM : Type} :
    ∀ (recs : List KeyValue) (ks : KeySummary DV TM),
      (recs.foldl (fun a r => updateSummary r a) ks).Version =
        (recs.map (fun r => r.version)).foldl maxStep ks.Version
  | [], _ => rfl
  | r :: rest, ks => by
    rw [List.foldl_cons, foldl_updateSummary_Version rest (updateSummary r ks), List.map_cons,
      List.foldl_cons, updateSummary_Version]

theorem agg_single_key {DV TM : Type} (dv : List Nat → Option DV × Option TM)
    (store : List KeyValue) (k : List Nat) (r1 : KeyValue) (rest : List KeyValue)
    (hr : store.filter (fun kv => kv.key == k) = r1 :: rest) :
    findByKey k (store.foldl (aggStep dv []) ([] : List (KeySummary DV TM))) =
      some (rest.foldl (fun a r => updateSummary r a) (newSummary dv r1)) := by
  rw [findByKey_foldl_aggStep dv [] k (by cases k <;> rfl) store [], findByKey_nil, hr,
    List.foldl_cons]
  exact foldl_optStep_some dv rest (newSummary dv r1)

/-- C7: listKeySummaries with the empty prefix returns a sequence strictly
sorted by ascending byte-wise lexicographic comparison of the key, with no
duplicate keys. -/
theorem listKeySummaries_sorted_nodup {DV TM : Type} (dv : List Nat → Option DV × Option TM)
    (store : List KeyValue) :
    List.Pairwise (fun x y : KeySummary DV TM => keyLtB x.Key y.Key = true)
      (listKeySummaries dv store []) ∧
    ((listKeySummaries dv store [] : List (KeySummary DV TM)).map (fun ks => ks.Key)).Nodup :=
  ⟨listKeySummaries_pairwise_lt dv store [], keysNodup_listKeySummaries dv store []⟩

/-- C8: for every store and prefix, listKeySummaries under the prefix is
exactly the filtering of the unfiltered listing to the keys starting with
the prefix; the retained summaries are identical, statistics included. -/
theorem listKeySummaries_pref_is_filter {DV TM : Type} (dv : List Nat → Option DV × Option TM)
    (store : List KeyValue) (pref : List Nat) :
    listKeySummaries dv store pref =
      (listKeySummaries dv store [] : List (KeySummary DV TM)).filter
        (fun ks => pref.isPrefixOf ks.Key) := by
  apply findByKey_ext _ _ (listKeySummaries_pairwise_lt dv store pref)
    ((listKeySummaries_pairwise_lt dv store []).sublist (List.filter_sublist _))
  intro k
  rw [findByKey_listKeySummaries]
  by_cases hpk : pref.isPrefixOf k = true
  · rw [findByKey_foldl_aggStep dv pref k hpk store [], findByKey_nil]
    have hfil : findByKey k ((listKeySummaries dv store [] : List (KeySummary DV TM)).filter
        (fun ks => pref.isPrefixOf ks.Key)) =
        findByKey k (listKeySummaries dv store [] : List (KeySummary DV TM)) := by
      apply findByKey_filter
      intro a _ hak
      rw [hak]
      exact hpk
    rw [hfil, findByKey_listKeySummaries,
      findByKey_foldl_aggStep dv [] k (by cases k <;> rfl) store [], findByKey_nil]
  · have hpk' : pref.isPrefixOf k = false := by
      revert hpk
      cases pref.isPrefixOf k <;> simp
    rw [findByKey_foldl_aggStep_noPref dv pref k hpk' store [], findByKey_nil]
    symm
    apply List.find?_eq_none.mpr
    intro x hx
    rcases List.mem_filter.mp hx with ⟨_, hpx⟩
    simp only [beq_iff_eq]
    intro hh
    rw [hh] at hpx
    rw [hpx] at hpk'
    simp at hpk'

/-- C6 (amended): for a key k whose records carry exactly the versions
v1 < v2 < v3 with v3 non-negative (etcd versions are never negative; see
the counterexample for why the bound is needed), the aggregated summary
for k reports latest version v3 and version count 3 in any physical order,
and maxInSlice of listVersions also returns v3. -/
theorem listKeySummaries_three_versions {DV TM : Type} (dv : List Nat → Option DV × Option TM)
    (store : List KeyValue) (k : List Nat) (v1 v2 v3 : Int)
    (hperm : ((store.filter (fun kv => kv.key == k)).map (fun kv => kv.version)).Perm [v1, v2, v3])
    (h12 : v1 < v2) (h23 : v2 < v3) (h3 : 0 ≤ v3) :
    (∃ ks ∈ (listKeySummaries dv store [] : List (KeySummary DV TM)), ks.Key = k) ∧
    (∀ ks ∈ (listKeySummaries dv store [] : List (KeySummary DV TM)), ks.Key = k →
      ks.Version = v3 ∧ ks.Stats.VersionCount = 3) ∧
    maxInSlice (listVersions store k) = v3 := by
  obtain ⟨r1, rest, hr⟩ : ∃ r1 rest, store.filter (fun kv => kv.key == k) = r1 :: rest := by
    cases hc : store.filter (fun kv => kv.key == k) with
    | nil =>
      exfalso
      have hl := hperm.length_eq
      rw [hc] at hl
      simp at hl
    | cons a t => exact ⟨a, t, rfl⟩
  have hlen : rest.length = 2 := by
    have hl := hperm.length_eq
    rw [hr] at hl
    simp at hl
    omega
  have hvers : ((r1 :: rest).map (fun kv => kv.version)).Perm [v1, v2, v3] := by
    rw [← hr]
    exact hperm
  have hub : ∀ x ∈ (r1 :: rest).map (fun kv => kv.version), x ≤ v3 := by
    intro x hx
    have hx3 := hvers.mem_iff.mp hx
    simp only [List.mem_cons, List.not_mem_nil, or_false] at hx3
    rcases hx3 with rfl | rfl | rfl
    · omega
    · omega
    · omega
  have hv3mem : v3 ∈ (r1 :: rest).map (fun kv => kv.version) := hvers.mem_iff.mpr (by simp)
  have hr1key : r1.key = k := by
    have hmem : r1 ∈ store.filter (fun kv => kv.key == k) := by
      rw [hr]
      exact List.mem_cons_self _ _
    have hm := (List.mem_filter.mp hmem).2
    simpa [beq_iff_eq] using hm
  have hmap : (r1 :: rest).map (fun kv => kv.version) =
      r1.version :: rest.map (fun kv => kv.version) := rfl
  have hFle : (rest.map (fun kv => kv.version)).foldl maxStep r1.version ≤ v3 := by
    rcases foldl_maxStep_attained (rest.map (fun kv => kv.version)) r1.version with he | he
    · rw [he]
      exact hub r1.version (by rw [hmap]; exact List.mem_cons_self _ _)
    · exact hub _ (by rw [hmap]; exact List.mem_cons_of_mem _ he)
  have hFge : v3 ≤ (rest.map (fun kv => kv.version)).foldl maxStep r1.version := by
    rw [hmap] at hv3mem
    rcases List.mem_cons.mp hv3mem with he | he
    · rw [he]
      exact (foldl_maxStep_bounds (rest.map (fun kv => kv.version)) r1.version).1
    · exact (foldl_maxStep_bounds (rest.map (fun kv => kv.version)) r1.version).2 v3 he
  have hF : (rest.map (fun kv => kv.version)).foldl maxStep r1.version = v3 :=
    le_antisymm hFle hFge
  have hagg := agg_single_key dv store k r1 rest hr
  have hfind : findByKey k (listKeySummaries dv store [] : List (KeySummary DV TM)) =
      some (rest.foldl (fun a r => updateSummary r a) (newSummary dv r1)) := by
    rw [findByKey_listKeySummaries]
    exact hagg
  have hKSkey : (rest.foldl (fun a r => updateSummary r a) (newSummary dv r1)).Key = k := by
    rw [foldl_updateSummary_Key]
    exact hr1key
  have hKSver : (rest.foldl (fun a r => updateSummary r a) (newSummary dv r1)).Version = v3 := by
    rw [foldl_updateSummary_Version]
    exact hF
  have hKScnt :
      (rest.foldl (fun a r => updateSummary r a) (newSummary dv r1)).Stats.VersionCount = 3 := by
    rw [foldl_updateSummary_VersionCount, hlen]
    rfl
  refine ⟨⟨_, (findByKey_mem hfind).1, hKSkey⟩, ?_, ?_⟩
  · intro ks hks hkey
    have hthis := findByKey_of_mem _ (keysNodup_listKeySummaries dv store []) ks hks k hkey
    rw [hfind] at hthis
    have heq := Option.some.inj hthis
    rw [← heq]
    exact ⟨hKSver, hKScnt⟩
  · rw [maxInSlice_eq_foldl, listVersions_eq, hr]
    have hle0 : (List.map (fun kv => kv.version) (r1 :: rest)).foldl maxStep 0 ≤ v3 := by
      rcases foldl_maxStep_attained (List.map (fun kv => kv.version) (r1 :: rest)) 0 with he | he
      · rw [he]
        exact h3
      · exact hub _ he
    have hge0 : v3 ≤ (List.map (fun kv => kv.version) (r1 :: rest)).foldl maxStep 0 :=
      (foldl_maxStep_bounds (List.map (fun kv => kv.version) (r1 :: rest)) 0).2 v3 hv3mem
    exact le_antisymm hle0 hge0

/-- Witness for listKeySummaries_three_versions: key a holds versions
1, 2, 3 arriving in the physical order 2, 3, 1, interleaved with key b. -/
theorem listKeySummaries_three_versions_witness :
    ((storeC6w.filter (fun kv => kv.key == [97])).map (fun kv => kv.version)).Perm [1, 2, 3] ∧
    ((∃ ks ∈ (listKeySummaries dvId storeC6w [] : List (KeySummary (List Nat) (List Nat))),
        ks.Key = [97]) ∧
     (∀ ks ∈ (listKeySummaries dvId storeC6w [] : List (KeySummary (List Nat) (List Nat))),
        ks.Key = [97] → ks.Version = 3 ∧ ks.Stats.VersionCount = 3) ∧
     maxInSlice (listVersions storeC6w [97]) = 3) :=
  ⟨by decide, listKeySummaries_three_versions dvId storeC6w [97] 1 2 3 (by decide) (by decide)
    (by decide) (by decide)⟩

theorem summarizeFields_unrecognized {DV TM : Type} (marshal : Option DV → String)
    (s : KeySummary DV TM) :
    ∀ fields : List String, "bogus" ∈ fields →
      ∃ f, summarizeFields marshal s fields = Except.error (GoError.unrecognizedField f)
  | [], hb => absurd hb (List.not_mem_nil _)
  | f :: fs, hb => by
    by_cases h1 : f = Key
    · have hfs : "bogus" ∈ fs := by
        rcases List.mem_cons.mp hb with he | he
        · exact absurd (he.trans h1) (by decide)
        · exact he
      rcases summarizeFields_unrecognized marshal s fs hfs with ⟨g, hg⟩
      exact ⟨g, by simp [summarizeFields, h1, hg, Except.map]⟩
    · by_cases h2 : f = ValueSize
      · have hfs : "bogus" ∈ fs := by
          rcases List.mem_cons.mp hb with he | he
          · exact absurd (he.trans h2) (by decide)
          · exact he
        rcases summarizeFields_unrecognized marshal s fs hfs with ⟨g, hg⟩
        exact ⟨g, by simp [summarizeFields, h1, h2, hg, Except.map]⟩
      · by_cases h3 : f = AllVersionsValueSize
        · have hfs : "bogus" ∈ fs := by
            rcases List.mem_cons.mp hb with he | he
            · exact absurd (he.trans h3) (by decide)
            · exact he
          rcases summarizeFields_unrecognized marshal s fs hfs with ⟨g, hg⟩
          exact ⟨g, by simp [summarizeFields, h1, h2, h3, hg, Except.map]⟩
        · by_cases h4 : f = VersionCount
          · have hfs : "bogus" ∈ fs := by
              rcases List.mem_cons.mp hb with he | he
              · exact absurd (he.trans h4) (by decide)
              · exact he
            rcases summarizeFields_unrecognized marshal s fs hfs with ⟨g, hg⟩
            exact ⟨g, by simp [summarizeFields, h1, h2, h3, h4, hg, Except.map]⟩
          · by_cases h5 : f = Value
            · have hfs : "bogus" ∈ fs := by
                rcases List.mem_cons.mp hb with he | he
                · exact absurd (he.trans h5) (by decide)
                · exact he
              rcases summarizeFields_unrecognized marshal s fs hfs with ⟨g, hg⟩
              exact ⟨g, by simp [summarizeFields, h1, h2, h3, h4, h5, hg, Except.map]⟩
            · exact ⟨f, by simp [summarizeFields, h1, h2, h3, h4, h5]⟩

/-- C9 (amended): whenever the aggregation yields at least one summary, a
field list containing the unrecognized name bogus makes the listing fail
with the unrecognized-field error and no output line is written; on a
store and prefix with no matching keys the listing instead succeeds with
no output and no error (see the counterexample). -/
theorem printKeySummaries_unknown_field {DV TM : Type} (dv : List Nat → Option DV × Option TM)
    (marshal : Option DV → String) (store : List KeyValue) (pref : List Nat)
    (fields : List String)
    (hne : listKeySummaries dv store pref ≠ ([] : List (KeySummary DV TM)))
    (hb : "bogus" ∈ fields) :
    (printKeySummaries dv marshal store pref fields).1 = [] ∧
    ((printKeySummaries dv marshal store pref fields).2).map GoError.isUnrecognizedField =
      some true := by
  have hflen : ¬ fields.length = 0 := by
    have hnil : fields ≠ [] := List.ne_nil_of_mem hb
    simpa [List.length_eq_zero] using hnil
  cases hsum : (listKeySummaries dv store pref : List (KeySummary DV TM)) with
  | nil => exact absurd hsum hne
  | cons s rest =>
    rcases summarizeFields_unrecognized marshal s fields hb with ⟨g, hg⟩
    have hsummarize : summarize marshal s fields = Except.error (GoError.unrecognizedField g) := by
      simp [summarize, hg, Except.map]
    have hres : printKeySummaries dv marshal store pref fields =
        ([], some (GoError.unrecognizedField g)) := by
      unfold printKeySummaries
      rw [if_neg hflen, hsum]
      simp [printSummariesLoop, hsummarize]
    rw [hres]
    exact ⟨rfl, rfl⟩

/-- Witness for printKeySummaries_unknown_field: a two-record store, the
field list key,bogus, no output and an unrecognized-field error. -/
theorem printKeySummaries_unknown_field_witness :
    listKeySummaries dvId storeC1 [] ≠ ([] : List (KeySummary (List Nat) (List Nat))) ∧
    "bogus" ∈ ["key", "bogus"] ∧
    ((printKeySummaries dvId marshal0 storeC1 [] ["key", "bogus"]).1 = [] ∧
     ((printKeySummaries dvId marshal0 storeC1 [] ["key", "bogus"]).2).map
        GoError.isUnrecognizedField = some true) :=
  ⟨by decide, by decide,
    printKeySummaries_unknown_field dvId marshal0 storeC1 [] ["key", "bogus"] (by decide)
      (by decide)⟩
